import Mathlib

/-!
# Verification of the `spooky_connect4` engine

A shallow embedding of the Rust sources (`board.rs`, `game.rs`, `move.rs`,
`player.rs`, `outcome.rs`, `serde_support.rs`) of the connect-four engine,
together with theorems settling the specification's claims about it.

Machine integers: the Rust code uses `usize` indices that are always small
(board dimensions, cell indices); all arithmetic stays far from overflow, so
they are embedded as `Nat`.  The win-scan cursor is `i32` in the source and is
embedded as `Int`.
-/

namespace Connect4

/-- The two players (`src/player.rs`). -/
inductive Player where
  | Red
  | Yellow
deriving DecidableEq, Repr

/-- `Player::opposite` (`src/player.rs`). -/
def Player.opposite : Player → Player
  | .Red => .Yellow
  | .Yellow => .Red

/-- Game outcomes (`src/outcome.rs`). -/
inductive GameOutcome where
  | RedWin
  | YellowWin
  | Draw
deriving DecidableEq, Repr

/-- A cell coordinate.  Modelled from the spec: the file `position.rs` is not
among the repository's staged sources (only its users are).  Spec §3 describes
`Position` as a zero-indexed (column, row) pair, valid relative to a board when
`col < width` and `row < height`, with `to_index` the row-major flat index that
`Board` uses for its cell vector (`row * width + col`, matching
`Board::index`). -/
structure Position where
  col : Nat
  row : Nat
deriving DecidableEq, Repr

/-- Modelled from the spec (§3): validity of a position relative to given
board dimensions. -/
def Position.isValid (pos : Position) (width height : Nat) : Bool :=
  decide (pos.col < width) && decide (pos.row < height)

/-- Modelled from the spec (§3): the row-major flat index of a position. -/
def Position.toIndex (pos : Position) (width : Nat) : Nat :=
  pos.row * width + pos.col

/-- A move: a fully specified landing cell (`src/move.rs`). -/
structure Move where
  col : Nat
  row : Nat
deriving DecidableEq, Repr

/-- `Move::position` (`src/move.rs`). -/
def Move.position (m : Move) : Position := ⟨m.col, m.row⟩

def STANDARD_COLS : Nat := 7
def STANDARD_ROWS : Nat := 6

/-- The board (`src/board.rs`): a row-major vector of optional pieces plus the
dimensions. -/
structure Board where
  cells : List (Option Player)
  width : Nat
  height : Nat
deriving DecidableEq, Repr

/-- `Board::new`. -/
def Board.new (width height : Nat) : Board :=
  ⟨List.replicate (width * height) none, width, height⟩

/-- `Board::standard`. -/
def Board.standard : Board := Board.new STANDARD_COLS STANDARD_ROWS

/-- `Board::index`. -/
def Board.index (b : Board) (col row : Nat) : Nat := row * b.width + col

/-- A direct cell read at (col, row): `self.cells[self.index(col, row)]`.
Reads past the vector's end yield `none`; in the source every such read is
guarded so the index is in bounds. -/
def Board.cell (b : Board) (col row : Nat) : Option Player :=
  b.cells.getD (b.index col row) none

/-- `Board::get_piece`. -/
def Board.getPiece (b : Board) (pos : Position) : Option Player :=
  if pos.isValid b.width b.height then b.cells.getD (pos.toIndex b.width) none
  else none

/-- `Board::set_piece`: a guarded direct write, a no-op out of range. -/
def Board.setPiece (b : Board) (pos : Position) (player : Option Player) : Board :=
  if pos.isValid b.width b.height then
    { b with cells := b.cells.set (pos.toIndex b.width) player }
  else b

/-- `Board::clear`. -/
def Board.clear (b : Board) : Board :=
  { b with cells := List.replicate (b.width * b.height) none }

/-- `Board::is_board_full`: the top row is fully occupied. -/
def Board.isBoardFull (b : Board) : Bool :=
  (List.range b.width).all fun col => (b.cell col (b.height - 1)).isSome

/-- The loop of `Board::column_height`: scan rows from `n - 1` down to `0`,
returning `row + 1` at the first occupied cell. -/
def Board.colHeightAux (b : Board) (col : Nat) : Nat → Nat
  | 0 => 0
  | r + 1 => if (b.cell col r).isSome then r + 1 else b.colHeightAux col r

/-- `Board::column_height`. -/
def Board.columnHeight (b : Board) (col : Nat) : Nat :=
  if b.width ≤ col then 0 else b.colHeightAux col b.height

/-- `Board::is_column_full`: an out-of-range column reports as full. -/
def Board.isColumnFull (b : Board) (col : Nat) : Bool :=
  if b.width ≤ col then true else (b.cell col (b.height - 1)).isSome

/-- `Board::drop_piece`: place in the lowest empty cell of the column,
returning the landing row and the updated board; `none` (and no write) if the
column is out of range or full. -/
def Board.dropPiece (b : Board) (col : Nat) (player : Player) : Option (Nat × Board) :=
  if b.width ≤ col ∨ b.isColumnFull col then none
  else
    match (List.range b.height).find? (fun r => (b.cell col r).isNone) with
    | some r => some (r, { b with cells := b.cells.set (b.index col r) (some player) })
    | none => none

/-- The `while` loop of `Board::count_in_direction`, with an explicit fuel
bound.  The cursor `(col, row)` walks in steps of `(dcol, drow)`; the loop
counts consecutive same-player occupied cells and stops at the first empty
cell, opposite piece, or board edge.  The fuel `b.width + b.height` strictly
exceeds the number of in-bounds cells any straight non-zero direction can
visit, so it never cuts the walk short for the four axes the source uses. -/
def Board.countAux (b : Board) (player : Player) (dcol drow : Int) :
    Nat → Int → Int → Nat
  | 0, _, _ => 0
  | fuel + 1, col, row =>
    if 0 ≤ col ∧ col < (b.width : Int) ∧ 0 ≤ row ∧ row < (b.height : Int) then
      match b.cell col.toNat row.toNat with
      | some p =>
        if p = player then 1 + b.countAux player dcol drow fuel (col + dcol) (row + drow)
        else 0
      | none => 0
    else 0

/-- `Board::count_in_direction`. -/
def Board.countInDirection (b : Board) (pos : Position) (player : Player)
    (dcol drow : Int) : Nat :=
  b.countAux player dcol drow (b.width + b.height)
    ((pos.col : Int) + dcol) ((pos.row : Int) + drow)

/-- `Board::check_direction`: `1` for the cell at `pos` itself, plus the counts
in the positive and negative directions, wins when the total reaches `4`. -/
def Board.checkDirection (b : Board) (pos : Position) (player : Player)
    (dcol drow : Int) : Bool :=
  decide (4 ≤ 1 + b.countInDirection pos player dcol drow
      + b.countInDirection pos player (-dcol) (-drow))

/-- `Board::check_win`: the four axes. -/
def Board.checkWin (b : Board) (pos : Position) (player : Player) : Bool :=
  b.checkDirection pos player 1 0 || b.checkDirection pos player 0 1 ||
  b.checkDirection pos player 1 1 || b.checkDirection pos player 1 (-1)

/-- The game state (`src/game.rs`). -/
structure Game where
  board : Board
  current_player : Player
  move_history : List Move
  is_over : Bool
  outcome : Option GameOutcome
deriving DecidableEq, Repr

/-- `Game::new`. -/
def Game.new (width height : Nat) : Game :=
  ⟨Board.new width height, .Red, [], false, none⟩

/-- `Game::standard`. -/
def Game.standard : Game := Game.new STANDARD_COLS STANDARD_ROWS

/-- `Game::legal_moves`. -/
def Game.legalMoves (g : Game) : List Move :=
  if g.is_over then []
  else (List.range g.board.width).filterMap fun col =>
    if g.board.isColumnFull col then none
    else some ⟨col, g.board.columnHeight col⟩

/-- `Game::is_legal_move`. -/
def Game.isLegalMove (g : Game) (m : Move) : Bool :=
  if g.is_over then false
  else if g.board.width ≤ m.col then false
  else !g.board.isColumnFull m.col && decide (m.row = g.board.columnHeight m.col)

/-- `Game::make_move`: `true` plus the updated state on success, `false` plus
the unchanged state otherwise.  On success the mover's piece is dropped, the
move is appended to the history, the win/draw checks may conclude the game,
and the turn always flips. -/
def Game.makeMove (g : Game) (m : Move) : Bool × Game :=
  if !g.isLegalMove m then (false, g)
  else
    match g.board.dropPiece m.col g.current_player with
    | some (row, b) =>
      let pos : Position := ⟨m.col, row⟩
      let hist := g.move_history ++ [m]
      if b.checkWin pos g.current_player then
        (true, ⟨b, g.current_player.opposite, hist, true,
          some (match g.current_player with
            | .Red => GameOutcome.RedWin
            | .Yellow => GameOutcome.YellowWin)⟩)
      else if b.isBoardFull then
        (true, ⟨b, g.current_player.opposite, hist, true, some GameOutcome.Draw⟩)
      else
        (true, ⟨b, g.current_player.opposite, hist, g.is_over, g.outcome⟩)
    | none => (false, g)

/-- `Game::unmake_move`: pop the most recent move, clear its cell, reset the
terminal state and flip the turn back. -/
def Game.unmakeMove (g : Game) : Bool × Game :=
  match g.move_history.getLast? with
  | some lastMove =>
    (true, ⟨g.board.setPiece ⟨lastMove.col, lastMove.row⟩ none,
      g.current_player.opposite, g.move_history.dropLast, false, none⟩)
  | none => (false, g)

/-- Apply a list of moves in order through `make_move`, failing if any
application returns `false` (the driver loop every test and the deserializer
use). -/
def Game.playMoves : Game → List Move → Option Game
  | g, [] => some g
  | g, m :: ms =>
    match g.makeMove m with
    | (true, g') => g'.playMoves ms
    | (false, _) => none

/-! ## Compact move-log serialization (`src/serde_support.rs`)

The serde implementations write a `Game` as the comma-joined decimal column
numbers of its move history and read one back by replaying those columns
against a fresh standard game.  The string plumbing (`to_string`, `join`,
`split`, `trim`, `parse::<usize>`) is embedded as explicit character-list
functions.  The embedded `parse` accepts exactly nonempty all-digit strings
(Rust's would also allow a leading `+` sign and reject overflowing values;
both differences are irrelevant to round trips of serialized games, whose
entries are plain decimal digits of small columns). -/

/-- The decimal digit character for `d < 10`. -/
def digitChar (d : Nat) : Char := Char.ofNat (48 + d)

/-- Decimal rendering of a natural number, most significant digit first
(`usize::to_string`), with fuel for the division recursion. -/
def natToCharsAux : Nat → Nat → List Char
  | 0, _ => []
  | fuel + 1, n =>
    if n < 10 then [digitChar n]
    else natToCharsAux fuel (n / 10) ++ [digitChar (n % 10)]

/-- Decimal rendering of a natural number (`usize::to_string`). -/
def natToChars (n : Nat) : List Char := natToCharsAux (n + 1) n

/-- `Vec::join(",")` on the underlying character lists. -/
def joinComma : List (List Char) → List Char
  | [] => []
  | [p] => p
  | p :: ps => p ++ ',' :: joinComma ps

/-- `str::split(',')` on the underlying character list: always at least one
part, one more part per comma. -/
def splitComma : List Char → List (List Char)
  | [] => [[]]
  | c :: cs =>
    if c = ',' then [] :: splitComma cs
    else
      match splitComma cs with
      | [] => [[c]]
      | p :: ps => (c :: p) :: ps

/-- ASCII whitespace test for `str::trim`. -/
def isWS (c : Char) : Bool := c = ' ' || c = '\t' || c = '\n' || c = '\r'

/-- `str::trim`. -/
def trimChars (cs : List Char) : List Char :=
  ((cs.dropWhile isWS).reverse.dropWhile isWS).reverse

/-- ASCII decimal digit test. -/
def isDigitChar (c : Char) : Bool := decide (48 ≤ c.toNat) && decide (c.toNat ≤ 57)

/-- `str::parse::<usize>()`: a nonempty all-digit string read in base 10. -/
def parseChars (cs : List Char) : Option Nat :=
  if cs.isEmpty || !cs.all isDigitChar then none
  else some (cs.foldl (fun a c => 10 * a + (c.toNat - 48)) 0)

/-- Serialize a game: the move history's columns joined by commas
(`impl Serialize for Game`); an empty history gives the empty string. -/
def serializeGame (g : Game) : String :=
  String.mk (joinComma (g.move_history.map fun m => natToChars m.col))

/-- The replay loop of `impl Deserialize for Game`: parse each part as a
column, take the column's current height as the row, and `make_move`; the
first unparsable part or rejected move aborts with an error. -/
def replayParts : Game → List (List Char) → Except String Game
  | g, [] => .ok g
  | g, part :: rest =>
    match parseChars (trimChars part) with
    | none => .error "Invalid column number"
    | some col =>
      match g.makeMove ⟨col, g.board.columnHeight col⟩ with
      | (true, g') => replayParts g' rest
      | (false, _) => .error ("Invalid move: col " ++ String.mk (natToChars col))

/-- `impl Deserialize for Game`: the empty string is the fresh standard game;
otherwise split on commas and replay every part. -/
def deserializeGame (s : String) : Except String Game :=
  if s.data = [] then .ok Game.standard
  else replayParts Game.standard (splitComma s.data)

/-! ## Well-formedness invariants -/

/-- The cell vector has exactly `width * height` entries — true of every board
the source can build (`Board::new`/`clear` allocate exactly that, and writes
never resize). -/
def Board.WF (b : Board) : Prop := b.cells.length = b.width * b.height

/-- The gravity invariant of spec §3: in every column the occupied rows form a
contiguous run starting at row 0 (an occupied cell has an occupied cell right
below it). -/
def Board.gravity (b : Board) : Prop :=
  ∀ c < b.width, ∀ r < b.height,
    0 < r → (b.cell c r).isSome = true → (b.cell c (r - 1)).isSome = true

instance (b : Board) : Decidable b.WF := by unfold Board.WF; infer_instance

instance (b : Board) : Decidable b.gravity := by unfold Board.gravity; infer_instance

/-- Game states reachable from a fresh game by successful `make_move` and
`unmake_move` calls. -/
inductive Reachable : Game → Prop where
  | fresh (width height : Nat) : Reachable (Game.new width height)
  | step {g g' : Game} (m : Move) : Reachable g → g.makeMove m = (true, g') → Reachable g'
  | back {g g' : Game} : Reachable g → g.unmakeMove = (true, g') → Reachable g'

/-! ## Scenario boards and games

Concrete positions used by the scenario parts of the claims, built through the
engine's own operations (each mirrors one of the repository's unit tests). -/

/-- Drop a sequence of pieces at board level, ignoring failed drops (the board
test harness pattern). -/
def dropSeq (b : Board) (ds : List (Nat × Player)) : Board :=
  ds.foldl (fun b d => ((b.dropPiece d.1 d.2).map Prod.snd).getD b) b

/-- Four reds on the bottom row, columns 0–3. -/
def bHoriz4 : Board := dropSeq Board.standard [(0, .Red), (1, .Red), (2, .Red), (3, .Red)]

/-- Four reds stacked in column 0. -/
def bVert4 : Board := dropSeq Board.standard [(0, .Red), (0, .Red), (0, .Red), (0, .Red)]

/-- An ascending red diagonal ending at (3, 3) (the `/` win test). -/
def bDiagUp : Board :=
  dropSeq Board.standard [(0, .Red), (1, .Yellow), (1, .Red), (2, .Yellow), (2, .Yellow),
    (2, .Red), (3, .Yellow), (3, .Yellow), (3, .Yellow), (3, .Red)]

/-- A descending red diagonal ending at (3, 0) (the `\` win test). -/
def bDiagDown : Board :=
  dropSeq Board.standard [(0, .Yellow), (0, .Yellow), (0, .Yellow), (0, .Red), (1, .Yellow),
    (1, .Yellow), (1, .Red), (2, .Yellow), (2, .Red), (3, .Red)]

/-- Three reds in a row at columns 1–3, blocked by yellows at both ends. -/
def bBlocked3 : Board :=
  dropSeq Board.standard [(0, .Yellow), (1, .Red), (2, .Red), (3, .Red), (4, .Yellow)]

/-- Three reds stacked in column 0, capped by a yellow. -/
def bBlockedVert3 : Board :=
  dropSeq Board.standard [(0, .Red), (0, .Red), (0, .Red), (0, .Yellow)]

/-- Reds on the bottom row at columns 0, 1, 2 and 4 — the cell (3, 0) empty. -/
def bGapRow : Board := dropSeq Board.standard [(0, .Red), (1, .Red), (2, .Red), (4, .Red)]

/-- Reds on the bottom row at columns 3–6 — the column left of position (7, 0)
is the board edge. -/
def bEdge : Board := dropSeq Board.standard [(3, .Red), (4, .Red), (5, .Red), (6, .Red)]

/-- Reds at columns 0–2 and 4 with a yellow in between at (3, 0). -/
def bOppAtPos : Board :=
  dropSeq Board.standard [(0, .Red), (1, .Red), (2, .Red), (3, .Yellow), (4, .Red)]

/-- The serialization scenario's move sequence: columns 3, 3, 4, 4. -/
def demoMoves : List Move := [⟨3, 0⟩, ⟨3, 1⟩, ⟨4, 0⟩, ⟨4, 1⟩]

/-! ## Helper lemmas -/

theorem list_set_id {α : Type} {l : List α} {i : Nat} {a : α} (h : l[i]? = some a) :
    l.set i a = l := by
  induction l generalizing i with
  | nil => simp at h
  | cons x xs ih =>
    cases i with
    | zero => simp_all
    | succ n => simp_all [List.set]

theorem Player.opposite_opposite (p : Player) : p.opposite.opposite = p := by
  cases p <;> rfl

/-- `is_legal_move` unfolded: not over, the column in range and open, and the
row matching the column's current height. -/
theorem isLegalMove_iff (g : Game) (m : Move) :
    g.isLegalMove m = true ↔
      g.is_over = false ∧ m.col < g.board.width ∧ g.board.isColumnFull m.col = false
        ∧ m.row = g.board.columnHeight m.col := by
  unfold Game.isLegalMove
  rcases h1 : g.is_over
  · rcases h2 : g.board.isColumnFull m.col <;>
      simp [h2, Nat.lt_iff_add_one_le, Nat.not_le, and_comm]
  · simp

/-- A failing `make_move` leaves the state untouched. -/
theorem makeMove_snd_of_false {g : Game} {m : Move} (h : (g.makeMove m).1 = false) :
    (g.makeMove m).2 = g := by
  unfold Game.makeMove at h ⊢
  rcases hleg : g.isLegalMove m with _ | _ <;> simp [hleg] at h ⊢
  rcases hdp : g.board.dropPiece m.col g.current_player with _ | ⟨row, b⟩ <;>
    simp [hdp] at h ⊢
  split_ifs at h

/-- The shape of the state a successful `make_move` produces: the dropped
board, the move appended to the history, the flipped turn, and either the
terminal flag and outcome set together or both left untouched. -/
theorem makeMove_true_spec {g g' : Game} {m : Move} (h : g.makeMove m = (true, g')) :
    g.isLegalMove m = true ∧
    (∃ row b, g.board.dropPiece m.col g.current_player = some (row, b) ∧ g'.board = b) ∧
    g'.move_history = g.move_history ++ [m] ∧
    g'.current_player = g.current_player.opposite ∧
    ((g'.is_over = true ∧ g'.outcome.isSome = true) ∨
      (g'.is_over = g.is_over ∧ g'.outcome = g.outcome)) := by
  unfold Game.makeMove at h
  rcases hleg : g.isLegalMove m with _ | _ <;> simp [hleg] at h
  rcases hdp : g.board.dropPiece m.col g.current_player with _ | ⟨row, b⟩ <;>
    simp [hdp] at h
  split_ifs at h <;> injection h with h1 h2 <;> subst h2 <;>
    exact ⟨rfl, ⟨row, b, rfl, rfl⟩, rfl, rfl, by simp⟩

/-! ## C4: win detection by directional counts -/

/-- C4: `check_win(pos, p)` is true exactly when, on one of the four axes, the
count of consecutive same-player cells extending from `pos` in the positive
direction plus the count in the negative direction plus 1 for `pos` itself
reaches 4; a run of exactly 4 on any axis wins (horizontal, vertical and both
diagonal instances below, each from the corresponding unit test), and a run of
exactly 3 blocked on both ends does not (horizontal and vertical instances). -/
theorem c4_check_win_axis_sums :
    (∀ (b : Board) (pos : Position) (p : Player),
      b.checkWin pos p = true ↔
        (4 ≤ b.countInDirection pos p 1 0 + b.countInDirection pos p (-1) 0 + 1
          ∨ 4 ≤ b.countInDirection pos p 0 1 + b.countInDirection pos p 0 (-1) + 1
          ∨ 4 ≤ b.countInDirection pos p 1 1 + b.countInDirection pos p (-1) (-1) + 1
          ∨ 4 ≤ b.countInDirection pos p 1 (-1) + b.countInDirection pos p (-1) 1 + 1))
    ∧ bHoriz4.checkWin ⟨3, 0⟩ .Red = true
    ∧ bVert4.checkWin ⟨0, 3⟩ .Red = true
    ∧ bDiagUp.checkWin ⟨3, 3⟩ .Red = true
    ∧ bDiagDown.checkWin ⟨3, 0⟩ .Red = true
    ∧ bBlocked3.checkWin ⟨2, 0⟩ .Red = false
    ∧ bBlockedVert3.checkWin ⟨0, 2⟩ .Red = false := by
  refine ⟨fun b pos p => ?_, by decide, by decide, by decide, by decide, by decide, by decide⟩
  simp only [Board.checkWin, Board.checkDirection, Bool.or_eq_true, decide_eq_true_eq,
    neg_zero, neg_neg]
  omega

/-! ## C9: the "Red plays 0,1,2,3 while Yellow never moves" scenario -/

/-- C9 counterexample: playing columns 0, 1, 2, 3 in order from a fresh
standard game does not end it — the turn alternates unconditionally, so the
pieces land R, Y, R, Y (Yellow owns (1,0) and (3,0)); `is_over` stays false
and no outcome is set, contradicting the claimed `RedWin`. -/
theorem c9_columns_0123_not_a_win :
    (Game.standard.playMoves [⟨0, 0⟩, ⟨1, 0⟩, ⟨2, 0⟩, ⟨3, 0⟩]).map
        (fun g => (g.is_over, g.outcome, g.board.cell 1 0, g.board.cell 3 0))
      = some (false, none, some .Yellow, some .Yellow) := by
  decide

/-- C9 as amended: the engine alternates turns unconditionally, so Yellow must
move between Red's moves; with Yellow playing column 4 (clear of the run)
while Red plays columns 0, 1, 2, 3 in order, Red's fourth move ends the game
with `is_over() = true` and outcome `RedWin`. -/
theorem c9_red_wins_with_yellow_in_column_4 :
    (Game.standard.playMoves
        [⟨0, 0⟩, ⟨4, 0⟩, ⟨1, 0⟩, ⟨4, 1⟩, ⟨2, 0⟩, ⟨4, 2⟩, ⟨3, 0⟩]).map
        (fun g => (g.is_over, g.outcome))
      = some (true, some .RedWin) := by
  decide

/-! ## C6: `column_height` versus the contiguous-from-bottom count -/

/-- The loop for `contigFromBottom`, counting occupied cells upward from row
`r` while they stay occupied and in range. -/
def Board.contigAux (b : Board) (col : Nat) : Nat → Nat → Nat
  | _, 0 => 0
  | r, fuel + 1 =>
    if r < b.height ∧ (b.cell col r).isSome = true then 1 + b.contigAux col (r + 1) fuel
    else 0

/-- The quantity the spec's sentence describes, stated from its words for
comparison with the source's `column_height`: "number of contiguous occupied
cells from the bottom" — the length of the run of occupied cells starting at
row 0. -/
def Board.contigFromBottom (b : Board) (col : Nat) : Nat :=
  b.contigAux col 0 b.height

/-- C6 counterexample: on a standard board edited via `set_piece` to hold a
single floating red piece at (0, 3), `column_height(0)` is 4 (one plus the
topmost occupied row) while the number of contiguously occupied cells counting
up from row 0 is 0 — the claimed equality fails on a non-gravity board. -/
theorem c6_floating_piece_counterexample :
    (Board.standard.setPiece ⟨0, 3⟩ (some .Red)).columnHeight 0 = 4
    ∧ (Board.standard.setPiece ⟨0, 3⟩ (some .Red)).contigFromBottom 0 = 0 := by
  decide

theorem colHeightAux_le (b : Board) (col n : Nat) : b.colHeightAux col n ≤ n := by
  induction n with
  | zero => simp [Board.colHeightAux]
  | succ r ih =>
    unfold Board.colHeightAux
    split
    · exact le_refl _
    · exact ih.trans (Nat.le_succ r)

/-- `colHeightAux` finds the row above the topmost occupied cell: every row
from its value up to `n` is empty, and the row just below its value (when
positive) is occupied. -/
theorem colHeightAux_spec (b : Board) (col : Nat) : ∀ n : Nat,
    (∀ r, b.colHeightAux col n ≤ r → r < n → (b.cell col r).isSome = false)
    ∧ (0 < b.colHeightAux col n → (b.cell col (b.colHeightAux col n - 1)).isSome = true) := by
  intro n
  induction n with
  | zero =>
    exact ⟨fun r h1 h2 => absurd h2 (by omega), fun h => absurd h (by simp [Board.colHeightAux])⟩
  | succ m ih =>
    unfold Board.colHeightAux
    by_cases hc : (b.cell col m).isSome = true
    · simp only [hc, if_true]
      exact ⟨fun r h1 h2 => absurd h2 (by omega), fun _ => by simpa using hc⟩
    · simp only [hc, if_false]
      refine ⟨fun r h1 h2 => ?_, ih.2⟩
      rcases Nat.lt_or_ge r m with hlt | hge
      · exact ih.1 r h1 hlt
      · have : r = m := by omega
        subst this
        simpa using hc

/-- `column_height` of an in-range column: rows at or above it are empty, the
row below it (when positive) is occupied, and it never exceeds the height. -/
theorem columnHeight_spec (b : Board) (col : Nat) (h : col < b.width) :
    (∀ r, b.columnHeight col ≤ r → r < b.height → (b.cell col r).isSome = false)
    ∧ (0 < b.columnHeight col → (b.cell col (b.columnHeight col - 1)).isSome = true)
    ∧ b.columnHeight col ≤ b.height := by
  unfold Board.columnHeight
  rw [if_neg (by omega)]
  exact ⟨(colHeightAux_spec b col b.height).1, (colHeightAux_spec b col b.height).2,
    colHeightAux_le b col b.height⟩

/-- On a gravity-respecting board, everything below an occupied cell is
occupied. -/
theorem gravity_below {b : Board} (hg : b.gravity) {c : Nat} (hc : c < b.width) :
    ∀ r, r < b.height → (b.cell c r).isSome = true →
      ∀ s, s ≤ r → (b.cell c s).isSome = true := by
  intro r
  induction r with
  | zero =>
    intro h1 h2 s hs
    have : s = 0 := by omega
    exact this ▸ h2
  | succ m ih =>
    intro h1 h2 s hs
    rcases Nat.lt_or_ge s (m + 1) with hlt | hge
    · have hm := hg c hc (m + 1) h1 (Nat.succ_pos m) h2
      exact ih (by omega) (by simpa using hm) s (by omega)
    · have : s = m + 1 := by omega
      exact this ▸ h2

/-- `contigAux` counts exactly the length of the occupied run starting at `s`,
given enough fuel. -/
theorem contigAux_eq (b : Board) (col : Nat) : ∀ (fuel s k : Nat), k ≤ fuel →
    (∀ i, i < k → s + i < b.height ∧ (b.cell col (s + i)).isSome = true) →
    ¬(s + k < b.height ∧ (b.cell col (s + k)).isSome = true) →
    b.contigAux col s fuel = k := by
  intro fuel
  induction fuel with
  | zero =>
    intro s k hk hall hstop
    interval_cases k
    simp [Board.contigAux]
  | succ f ih =>
    intro s k hk hall hstop
    unfold Board.contigAux
    cases k with
    | zero =>
      rw [if_neg]
      simpa using hstop
    | succ j =>
      have h0 := hall 0 (by omega)
      rw [if_pos (by simpa using h0)]
      have step : b.contigAux col (s + 1) f = j := by
        apply ih (s + 1) j (by omega)
        · intro i hi
          have heq : s + 1 + i = s + (i + 1) := by omega
          rw [heq]
          exact hall (i + 1) (by omega)
        · have heq : s + 1 + j = s + (j + 1) := by omega
          rw [heq]
          exact hstop
      omega

/-- C6 as amended: `column_height(col)` is 0 for an out-of-range column, and it
equals the number of contiguously occupied cells counting up from row 0 on
every gravity-respecting board (in particular on every board built by drops
alone); on an arbitrary board edited via `set_piece` it is instead one plus
the topmost occupied row, which the counterexample separates from the
contiguous count. -/
theorem c6_column_height_gravity :
    (∀ (b : Board) (col : Nat), b.width ≤ col → b.columnHeight col = 0)
    ∧ (∀ (b : Board) (col : Nat), b.gravity → col < b.width →
        b.columnHeight col = b.contigFromBottom col) := by
  constructor
  · intro b col h
    unfold Board.columnHeight
    rw [if_pos h]
  · intro b col hg hc
    obtain ⟨hempty, hocc, hle⟩ := columnHeight_spec b col hc
    unfold Board.contigFromBottom
    symm
    apply contigAux_eq b col b.height 0 (b.columnHeight col) hle
    · intro i hi
      have hiH : i < b.height := by omega
      refine ⟨by simpa using hiH, ?_⟩
      have h1 : 0 < b.columnHeight col := by omega
      have h2 := hocc h1
      have h3 : b.columnHeight col - 1 < b.height := by omega
      have := gravity_below hg hc (b.columnHeight col - 1) h3 h2 i (by omega)
      simpa using this
    · rintro ⟨hlt, hoccH⟩
      have h1 : b.columnHeight col < b.height := by simpa using hlt
      have := hempty (b.columnHeight col) (le_refl _) h1
      rw [show (0 : Nat) + b.columnHeight col = b.columnHeight col by omega] at hoccH
      exact absurd hoccH (by simp [this])

/-! ## C3: the shape of `legal_moves` -/

/-- C3: `legal_moves()` is empty on a concluded game; on a game in progress it
holds exactly the moves (col, current column height) for the open columns; and
(absent a conclusion) it is empty precisely when the board is full. -/
theorem c3_legal_moves_shape (g : Game) :
    (g.is_over = true → g.legalMoves = [])
    ∧ (g.is_over = false →
        ∀ m : Move, m ∈ g.legalMoves ↔
          (m.col < g.board.width ∧ g.board.isColumnFull m.col = false
            ∧ m.row = g.board.columnHeight m.col))
    ∧ (g.is_over = false → (g.legalMoves = [] ↔ g.board.isBoardFull = true)) := by
  refine ⟨fun h => by simp [Game.legalMoves, h], fun h m => ?_, fun h => ?_⟩
  · unfold Game.legalMoves
    rw [if_neg (by simp [h]), List.mem_filterMap]
    constructor
    · rintro ⟨c, hc, hf⟩
      rw [List.mem_range] at hc
      by_cases hfull : g.board.isColumnFull c = true
      · simp [hfull] at hf
      · rw [Bool.not_eq_true] at hfull
        simp only [hfull, Bool.false_eq_true, if_false, Option.some.injEq] at hf
        subst hf
        exact ⟨hc, hfull, rfl⟩
    · rintro ⟨hcol, hfull, hrow⟩
      refine ⟨m.col, List.mem_range.mpr hcol, ?_⟩
      rw [hfull]
      simp only [Bool.false_eq_true, if_false, Option.some.injEq]
      cases m
      simp_all
  · unfold Game.legalMoves Board.isBoardFull
    rw [if_neg (by simp [h]), List.filterMap_eq_nil_iff, List.all_eq_true]
    constructor
    · intro hall c hc
      have := hall c hc
      by_cases hfull : g.board.isColumnFull c = true
      · rw [List.mem_range] at hc
        unfold Board.isColumnFull at hfull
        rwa [if_neg (by omega)] at hfull
      · rw [Bool.not_eq_true] at hfull
        simp [hfull] at this
    · intro hall c hc
      have htop := hall c hc
      rw [List.mem_range] at hc
      have hfull : g.board.isColumnFull c = true := by
        unfold Board.isColumnFull
        rwa [if_neg (by omega)]
      simp [hfull]

/-! ## C5: failure leaves the state unchanged; success updates it atomically -/

/-- C5: a `make_move` returning false changes nothing; dropping into a full
column always fails (returning `none` without any write, which in this pure
embedding is the absence of mutation); a `make_move` into a full column fails
with the state intact; and a successful `make_move` updates board, history,
turn, and the terminal flag together with the outcome as one simultaneous
transition. -/
theorem c5_make_move_atomicity :
    (∀ (g : Game) (m : Move), (g.makeMove m).1 = false → (g.makeMove m).2 = g)
    ∧ (∀ (b : Board) (col : Nat) (p : Player),
        b.isColumnFull col = true → b.dropPiece col p = none)
    ∧ (∀ (g : Game) (m : Move),
        g.board.isColumnFull m.col = true → g.makeMove m = (false, g))
    ∧ (∀ (g g' : Game) (m : Move), g.makeMove m = (true, g') →
        (∃ row b, g.board.dropPiece m.col g.current_player = some (row, b) ∧ g'.board = b)
        ∧ g'.move_history = g.move_history ++ [m]
        ∧ g'.current_player = g.current_player.opposite
        ∧ ((g'.is_over = true ∧ g'.outcome.isSome = true)
            ∨ (g'.is_over = g.is_over ∧ g'.outcome = g.outcome))) := by
  refine ⟨fun g m h => makeMove_snd_of_false h, fun b col p h => ?_, fun g m h => ?_,
    fun g g' m h => (makeMove_true_spec h).2⟩
  · unfold Board.dropPiece
    rw [if_pos (Or.inr h)]
  · have hleg : g.isLegalMove m = false := by
      rw [← Bool.not_eq_true]
      intro hcontra
      rw [isLegalMove_iff] at hcontra
      exact absurd h (by simp [hcontra.2.2.1])
    unfold Game.makeMove
    simp [hleg]

/-! ## C10: `check_win` never reads the cell at `pos` -/

theorem setPiece_width (b : Board) (pos : Position) (v : Option Player) :
    (b.setPiece pos v).width = b.width := by
  unfold Board.setPiece
  split <;> rfl

theorem setPiece_height (b : Board) (pos : Position) (v : Option Player) :
    (b.setPiece pos v).height = b.height := by
  unfold Board.setPiece
  split <;> rfl

/-- Row-major flat indices of distinct in-range-column coordinates differ. -/
theorem flat_index_ne {w c1 r1 c2 r2 : Nat} (h1 : c1 < w) (h2 : c2 < w)
    (hne : ¬(c1 = c2 ∧ r1 = r2)) : r1 * w + c1 ≠ r2 * w + c2 := by
  intro heq
  rcases Nat.lt_trichotomy r1 r2 with hr | hr | hr
  · have : r1 * w + c1 < r2 * w + c2 := by
      calc r1 * w + c1 < r1 * w + w := by omega
        _ = (r1 + 1) * w := by ring
        _ ≤ r2 * w := Nat.mul_le_mul_right w hr
        _ ≤ r2 * w + c2 := Nat.le_add_right _ _
    omega
  · subst hr
    exact hne ⟨by omega, rfl⟩
  · have : r2 * w + c2 < r1 * w + c1 := by
      calc r2 * w + c2 < r2 * w + w := by omega
        _ = (r2 + 1) * w := by ring
        _ ≤ r1 * w := Nat.mul_le_mul_right w hr
        _ ≤ r1 * w + c1 := Nat.le_add_right _ _
    omega

/-- A `set_piece` write at `pos` leaves every other in-range-column cell
unchanged. -/
theorem setPiece_cell_ne (b : Board) (pos : Position) (v : Option Player)
    {c r : Nat} (hcw : c < b.width) (hpw : pos.col < b.width)
    (hne : ¬(c = pos.col ∧ r = pos.row)) :
    (b.setPiece pos v).cell c r = b.cell c r := by
  unfold Board.setPiece
  split
  · unfold Board.cell Board.index Position.toIndex
    rw [List.getD_eq_getElem?_getD, List.getD_eq_getElem?_getD, List.getElem?_set_ne]
    exact flat_index_ne hpw hcw (by tauto)
  · rfl

/-- The directional count walk starting one step away from `pos` in a nonzero
direction never returns to `pos`, so overwriting the cell at `pos` does not
change it. -/
theorem countAux_frame (b : Board) (pos : Position) (v : Option Player) (p : Player)
    (hpc : pos.col < b.width) (dc dr : Int) (hd : ¬(dc = 0 ∧ dr = 0)) :
    ∀ (fuel : Nat) (k col row : Int), 1 ≤ k →
      col = pos.col + k * dc → row = pos.row + k * dr →
      (b.setPiece pos v).countAux p dc dr fuel col row = b.countAux p dc dr fuel col row := by
  intro fuel
  induction fuel with
  | zero => intros; rfl
  | succ f ih =>
    intro k col row hk hcol hrow
    unfold Board.countAux
    rw [setPiece_width, setPiece_height]
    split_ifs with hb
    · have hcell : (b.setPiece pos v).cell col.toNat row.toNat = b.cell col.toNat row.toNat := by
        apply setPiece_cell_ne b pos v (by omega) hpc
        rintro ⟨hcc, hrr⟩
        have hc2 : (col.toNat : Int) = col := Int.toNat_of_nonneg (by omega)
        have hr2 : (row.toNat : Int) = row := Int.toNat_of_nonneg (by omega)
        have hdc : k * dc = 0 := by
          have : (pos.col : Int) = col := by rw [← hc2, hcc]
          omega
        have hdr : k * dr = 0 := by
          have : (pos.row : Int) = row := by rw [← hr2, hrr]
          omega
        have hk0 : k ≠ 0 := by omega
        exact hd ⟨(mul_eq_zero.mp hdc).resolve_left hk0, (mul_eq_zero.mp hdr).resolve_left hk0⟩
      rw [hcell]
      cases hcv : b.cell col.toNat row.toNat with
      | none => rfl
      | some q =>
        dsimp only
        split_ifs with hq
        · have := ih (k + 1) (col + dc) (row + dr) (by omega) (by rw [hcol]; ring)
            (by rw [hrow]; ring)
          omega
        · rfl
    · rfl

/-- Overwriting the cell at an in-range `pos` does not change any directional
count from `pos` along a nonzero direction. -/
theorem countInDirection_setPiece (b : Board) (pos : Position) (v : Option Player)
    (p : Player) (hpc : pos.col < b.width) (dc dr : Int) (hd : ¬(dc = 0 ∧ dr = 0)) :
    (b.setPiece pos v).countInDirection pos p dc dr = b.countInDirection pos p dc dr := by
  unfold Board.countInDirection
  rw [setPiece_width, setPiece_height]
  exact countAux_frame b pos v p hpc dc dr hd (b.width + b.height) 1 _ _ (le_refl 1)
    (by ring) (by ring)

/-- C10: `check_win(pos, p)` is independent of the contents of the cell at
`pos` — overwriting that cell with any value (the mover's piece, the
opponent's, or nothing) leaves the result unchanged — because `pos` itself is
always counted as a piece of `p`.  Concretely it reports a win at an empty
cell (`bGapRow`, reds either side of the empty (3,0)), at an out-of-range
position (`bEdge`, position (7,0) beside reds at columns 3–6), and at a cell
the opponent occupies (`bOppAtPos`, a yellow at (3,0) amid reds). -/
theorem c10_check_win_ignores_pos_cell :
    (∀ (b : Board) (pos : Position) (p : Player) (v : Option Player),
        pos.col < b.width → pos.row < b.height →
        (b.setPiece pos v).checkWin pos p = b.checkWin pos p)
    ∧ bGapRow.cell 3 0 = none ∧ bGapRow.checkWin ⟨3, 0⟩ .Red = true
    ∧ bEdge.checkWin ⟨7, 0⟩ .Red = true
    ∧ bOppAtPos.cell 3 0 = some .Yellow ∧ bOppAtPos.checkWin ⟨3, 0⟩ .Red = true := by
  refine ⟨fun b pos p v h1 h2 => ?_, by decide, by decide, by decide, by decide, by decide⟩
  unfold Board.checkWin Board.checkDirection
  simp only [neg_zero, neg_neg]
  rw [countInDirection_setPiece b pos v p h1 1 0 (by decide),
    countInDirection_setPiece b pos v p h1 (-1) 0 (by decide),
    countInDirection_setPiece b pos v p h1 0 1 (by decide),
    countInDirection_setPiece b pos v p h1 0 (-1) (by decide),
    countInDirection_setPiece b pos v p h1 1 1 (by decide),
    countInDirection_setPiece b pos v p h1 (-1) (-1) (by decide),
    countInDirection_setPiece b pos v p h1 1 (-1) (by decide),
    countInDirection_setPiece b pos v p h1 (-1) 1 (by decide)]

/-! ## C1: `unmake_move` after `make_move` is the identity -/

/-- `find?` on `range' s n` returns the first index satisfying the predicate. -/
theorem find?_range'_eq {p : Nat → Bool} : ∀ (n s k : Nat), k < n → p (s + k) = true →
    (∀ j, j < k → p (s + j) = false) →
    (List.range' s n).find? p = some (s + k) := by
  intro n
  induction n with
  | zero => intro s k hk; omega
  | succ m ih =>
    intro s k hk hp hmin
    rw [List.range'_succ s m 1]
    cases k with
    | zero =>
      exact List.find?_cons_of_pos _ (by simpa using hp)
    | succ j =>
      have h0 : p s = false := by simpa using hmin 0 (by omega)
      rw [List.find?_cons_of_neg _ (by simp [h0])]
      have := ih (s + 1) j (by omega) (by rw [show s + 1 + j = s + (j + 1) by omega]; exact hp)
        (fun i hi => by rw [show s + 1 + i = s + (i + 1) by omega]; exact hmin (i + 1) (by omega))
      rw [this]
      congr 1
      omega

/-- On a gravity-respecting well-formed board, dropping into an open in-range
column lands exactly at the column's current height. -/
theorem dropPiece_of_open (b : Board) (col : Nat) (p : Player)
    (hg : b.gravity) (hc : col < b.width)
    (hnf : b.isColumnFull col = false) (hh : 0 < b.height) :
    b.dropPiece col p = some (b.columnHeight col,
      { b with cells := b.cells.set (b.index col (b.columnHeight col)) (some p) }) := by
  obtain ⟨hempty, hocc, hle⟩ := columnHeight_spec b col hc
  have htop : (b.cell col (b.height - 1)).isSome = false := by
    unfold Board.isColumnFull at hnf
    rwa [if_neg (by omega)] at hnf
  have hHlt : b.columnHeight col < b.height := by
    rcases Nat.lt_or_ge (b.columnHeight col) b.height with h | h
    · exact h
    · have hH : b.columnHeight col = b.height := by omega
      have := hocc (by omega)
      rw [hH] at this
      exact absurd this (by simp [htop])
  have hfind : (List.range b.height).find? (fun r => (b.cell col r).isNone)
      = some (b.columnHeight col) := by
    rw [List.range_eq_range' b.height]
    have := @find?_range'_eq (fun r => (b.cell col r).isNone) b.height 0
      (b.columnHeight col) (by omega)
      (by
        show (b.cell col (0 + b.columnHeight col)).isNone = true
        rw [Nat.zero_add]
        have := hempty (b.columnHeight col) (le_refl _) hHlt
        cases hcv : b.cell col (b.columnHeight col) <;> simp_all)
      (fun j hj => by
        show (b.cell col (0 + j)).isNone = false
        rw [Nat.zero_add]
        have h1 : 0 < b.columnHeight col := by omega
        have h2 := hocc h1
        have h3 : b.columnHeight col - 1 < b.height := by omega
        have h4 := gravity_below hg hc (b.columnHeight col - 1) h3 h2 j (by omega)
        cases hcv : b.cell col j <;> simp_all)
    simpa using this
  unfold Board.dropPiece
  rw [if_neg (by push_neg; exact ⟨by omega, by simp [hnf]⟩), hfind]

/-- C1: on a non-terminal game whose board respects the gravity invariant (as
every board reached through normal play does), applying a legal move with
`make_move` and then `unmake_move` succeeds and restores the original board,
current player, terminal flag and outcome.  (The degenerate zero-height board
is excluded: there the Rust source indexes `cells[index(col, height - 1)]`
with an underflowing `height - 1` and panics, so it has no behaviour to
verify.) -/
theorem c1_unmake_after_make_identity (g : Game) (m : Move)
    (hwf : g.board.WF) (hg : g.board.gravity) (hh : 0 < g.board.height)
    (hover : g.is_over = false) (hout : g.outcome = none)
    (hleg : g.isLegalMove m = true) :
    (g.makeMove m).1 = true
    ∧ ((g.makeMove m).2.unmakeMove).1 = true
    ∧ ((g.makeMove m).2.unmakeMove).2.board = g.board
    ∧ ((g.makeMove m).2.unmakeMove).2.current_player = g.current_player
    ∧ ((g.makeMove m).2.unmakeMove).2.is_over = g.is_over
    ∧ ((g.makeMove m).2.unmakeMove).2.outcome = g.outcome := by
  obtain ⟨-, hcol, hnf, hrow⟩ := (isLegalMove_iff g m).mp hleg
  have hdp := dropPiece_of_open g.board m.col g.current_player hg hcol hnf hh
  rw [← hrow] at hdp
  have hHlt : m.row < g.board.height := by
    rw [hrow]
    rcases Nat.lt_or_ge (g.board.columnHeight m.col) g.board.height with h | h
    · exact h
    · obtain ⟨-, hocc, hle⟩ := columnHeight_spec g.board m.col hcol
      have hH : g.board.columnHeight m.col = g.board.height := by omega
      have htop : (g.board.cell m.col (g.board.height - 1)).isSome = false := by
        unfold Board.isColumnFull at hnf
        rwa [if_neg (by omega)] at hnf
      have := hocc (by omega)
      rw [hH] at this
      exact absurd this (by simp [htop])
  -- the freshly filled cell was empty before the move
  have hcellnone : g.board.cells[g.board.index m.col m.row]? = some none := by
    have hidx : g.board.index m.col m.row < g.board.cells.length := by
      unfold Board.index
      rw [hwf]
      calc m.row * g.board.width + m.col < m.row * g.board.width + g.board.width := by omega
        _ = (m.row + 1) * g.board.width := by ring
        _ ≤ g.board.height * g.board.width := Nat.mul_le_mul_right _ (by omega)
        _ = g.board.width * g.board.height := by ring
    have hcv : g.board.cell m.col m.row = none := by
      obtain ⟨hempty, -, -⟩ := columnHeight_spec g.board m.col hcol
      have := hempty m.row (by omega) hHlt
      cases hcv : g.board.cell m.col m.row <;> simp_all
    unfold Board.cell at hcv
    rw [List.getD_eq_getElem?_getD] at hcv
    rw [List.getElem?_eq_getElem hidx] at hcv ⊢
    simpa using hcv
  have hrestore : ∀ (pl : Player) (ov : Bool) (oc : Option GameOutcome),
      (Game.unmakeMove ⟨{ g.board with cells := g.board.cells.set (g.board.index m.col m.row) (some g.current_player) }, pl, g.move_history ++ [m], ov, oc⟩)
      = (true, ⟨g.board, pl.opposite, g.move_history, false, none⟩) := by
    intro pl ov oc
    have hlast : (g.move_history ++ [m]).getLast? = some m := by simp
    have hboard : Board.setPiece
        { g.board with cells := g.board.cells.set (g.board.index m.col m.row) (some g.current_player) }
        ⟨m.col, m.row⟩ none = g.board := by
      unfold Board.setPiece
      rw [if_pos (by simp [Position.isValid, hcol, hHlt])]
      show Board.mk _ g.board.width g.board.height = g.board
      rw [show Position.toIndex ⟨m.col, m.row⟩ g.board.width = g.board.index m.col m.row
        from rfl]
      rw [List.set_set]
      rw [list_set_id hcellnone]
    unfold Game.unmakeMove
    rw [show (⟨{ g.board with cells := g.board.cells.set (g.board.index m.col m.row) (some g.current_player) }, pl, g.move_history ++ [m], ov, oc⟩ : Game).move_history = g.move_history ++ [m] from rfl, hlast]
    dsimp only
    simp only [hboard]
    simp
  unfold Game.makeMove
  simp only [hleg, Bool.not_true, Bool.false_eq_true, if_false, hdp]
  split_ifs with hwin hfullb <;>
    rw [hrestore] <;>
    simp [Player.opposite_opposite, hover, hout]

/-- C1 witness: the round trip at the first move of a fresh standard game. -/
theorem c1_holds_at_first_move :
    (Game.standard.makeMove ⟨0, 0⟩).1 = true
    ∧ ((Game.standard.makeMove ⟨0, 0⟩).2.unmakeMove).1 = true
    ∧ ((Game.standard.makeMove ⟨0, 0⟩).2.unmakeMove).2.board = Game.standard.board
    ∧ ((Game.standard.makeMove ⟨0, 0⟩).2.unmakeMove).2.current_player
        = Game.standard.current_player
    ∧ ((Game.standard.makeMove ⟨0, 0⟩).2.unmakeMove).2.is_over = Game.standard.is_over
    ∧ ((Game.standard.makeMove ⟨0, 0⟩).2.unmakeMove).2.outcome = Game.standard.outcome :=
  c1_unmake_after_make_identity Game.standard ⟨0, 0⟩ (by decide) (by decide) (by decide)
    rfl rfl (by decide)

/-- A successful `make_move` preserves the cell-vector length and the gravity
invariant (the new piece lands exactly on top of its column's stack), so the
hypotheses of the C1 theorem hold of every state normal play produces. -/
theorem makeMove_preserves_inv {g g' : Game} {m : Move} (hwf : g.board.WF)
    (hg : g.board.gravity) (hmk : g.makeMove m = (true, g')) :
    g'.board.WF ∧ g'.board.gravity := by
  obtain ⟨hleg, ⟨row, b, hdp, hb⟩, -, -, -⟩ := makeMove_true_spec hmk
  obtain ⟨-, hcol, hnf, -⟩ := (isLegalMove_iff g m).mp hleg
  have hh : 0 < g.board.height := by
    rcases Nat.eq_zero_or_pos g.board.height with h0 | h
    · unfold Board.dropPiece at hdp
      split_ifs at hdp
      rw [h0] at hdp
      simp [List.range_zero] at hdp
    · exact h
  rw [dropPiece_of_open g.board m.col g.current_player hg hcol hnf hh] at hdp
  injection hdp with hdp
  injection hdp with hrow hbeq
  subst hrow
  rw [hb, ← hbeq]
  obtain ⟨hempty, hocc, hle⟩ := columnHeight_spec g.board m.col hcol
  have hHlt : g.board.columnHeight m.col < g.board.height := by
    rcases Nat.lt_or_ge (g.board.columnHeight m.col) g.board.height with h | h
    · exact h
    · have htop : (g.board.cell m.col (g.board.height - 1)).isSome = false := by
        unfold Board.isColumnFull at hnf
        rwa [if_neg (by omega)] at hnf
      have := hocc (by omega)
      rw [show g.board.columnHeight m.col = g.board.height by omega] at this
      exact absurd this (by simp [htop])
  have hidx : g.board.index m.col (g.board.columnHeight m.col) < g.board.cells.length := by
    unfold Board.index
    rw [hwf]
    calc g.board.columnHeight m.col * g.board.width + m.col
        < g.board.columnHeight m.col * g.board.width + g.board.width := by omega
      _ = (g.board.columnHeight m.col + 1) * g.board.width := by ring
      _ ≤ g.board.height * g.board.width := Nat.mul_le_mul_right _ (by omega)
      _ = g.board.width * g.board.height := by ring
  constructor
  · show (List.set _ _ _).length = _
    simpa using hwf
  · -- gravity of the board with the new piece at (m.col, columnHeight)
    intro c hcw r hrh hr hoccr
    have hcw' : c < g.board.width := hcw
    have hcell_top : (Board.mk (g.board.cells.set
        (g.board.index m.col (g.board.columnHeight m.col)) (some g.current_player))
        g.board.width g.board.height).cell m.col (g.board.columnHeight m.col)
        = some g.current_player := by
      show (g.board.cells.set (g.board.index m.col (g.board.columnHeight m.col))
          (some g.current_player)).getD
          (g.board.index m.col (g.board.columnHeight m.col)) none = some g.current_player
      rw [List.getD_eq_getElem?_getD, List.getElem?_set_eq_of_lt _ hidx]
      rfl
    have hcell_other : ∀ c0 r0, c0 < g.board.width →
        ¬(c0 = m.col ∧ r0 = g.board.columnHeight m.col) →
        (Board.mk (g.board.cells.set
          (g.board.index m.col (g.board.columnHeight m.col)) (some g.current_player))
          g.board.width g.board.height).cell c0 r0 = g.board.cell c0 r0 := by
      intro c0 r0 hc0 hne0
      show (g.board.cells.set (g.board.index m.col (g.board.columnHeight m.col))
          (some g.current_player)).getD (g.board.index c0 r0) none
          = g.board.cells.getD (g.board.index c0 r0) none
      rw [List.getD_eq_getElem?_getD, List.getD_eq_getElem?_getD, List.getElem?_set_ne]
      exact flat_index_ne hcol hc0 (fun hx => hne0 ⟨hx.1.symm, hx.2.symm⟩)
    by_cases hat : c = m.col ∧ r = g.board.columnHeight m.col
    · obtain ⟨rfl, rfl⟩ := hat
      have hbelow : (g.board.cell m.col (g.board.columnHeight m.col - 1)).isSome = true :=
        hocc (by omega)
      rw [hcell_other m.col (g.board.columnHeight m.col - 1) hcw'
        (by rintro ⟨-, h2⟩; omega)]
      exact hbelow
    · rw [hcell_other c r hcw' hat] at hoccr
      have hoccr' := hg c hcw' r hrh hr hoccr
      by_cases hat3 : c = m.col ∧ r - 1 = g.board.columnHeight m.col
      · obtain ⟨rfl, hr1⟩ := hat3
        rw [hr1, hcell_top]
        rfl
      · rw [hcell_other c (r - 1) hcw' hat3]
        exact hoccr'

/-- Every successful play from a fresh game lands on a well-formed,
gravity-respecting board. -/
theorem playMoves_inv : ∀ (ms : List Move) (g g' : Game), g.playMoves ms = some g' →
    g.board.WF → g.board.gravity → g'.board.WF ∧ g'.board.gravity := by
  intro ms
  induction ms with
  | nil =>
    intro g g' h hwf hg
    simp only [Game.playMoves] at h
    injection h with h
    subst h
    exact ⟨hwf, hg⟩
  | cons m rest ih =>
    intro g g' h hwf hg
    unfold Game.playMoves at h
    cases hmk : g.makeMove m with
    | mk ok g1 =>
      rw [hmk] at h
      cases ok
      · simp at h
      · obtain ⟨hwf1, hg1⟩ := makeMove_preserves_inv hwf hg hmk
        exact ih g1 g' h hwf1 hg1

/-! ## C2: strict alternation and history length -/

/-- The shape of the state a successful `unmake_move` produces. -/
theorem unmakeMove_true_spec {g g' : Game} (h : g.unmakeMove = (true, g')) :
    g.move_history ≠ []
    ∧ g'.move_history = g.move_history.dropLast
    ∧ g'.current_player = g.current_player.opposite := by
  unfold Game.unmakeMove at h
  cases hl : g.move_history.getLast? with
  | none =>
    rw [hl] at h
    simp at h
  | some lm =>
    rw [hl] at h
    injection h with h1 h2
    subst h2
    refine ⟨fun hemp => ?_, rfl, rfl⟩
    rw [hemp] at hl
    simp at hl

/-- Each successful apply extends the history by exactly one move. -/
theorem playMoves_length : ∀ (ms : List Move) (g g' : Game), g.playMoves ms = some g' →
    g'.move_history.length = g.move_history.length + ms.length := by
  intro ms
  induction ms with
  | nil =>
    intro g g' h
    simp only [Game.playMoves] at h
    injection h with h
    subst h
    simp
  | cons m rest ih =>
    intro g g' h
    unfold Game.playMoves at h
    cases hmk : g.makeMove m with
    | mk ok g1 =>
      rw [hmk] at h
      cases ok
      · simp at h
      · have hlen := ih g1 g' h
        obtain ⟨-, -, hhist, -, -⟩ := makeMove_true_spec hmk
        rw [hlen, hhist]
        simp
        omega

/-- C2: on every state reachable from a fresh game through successful
`make_move` and `unmake_move` calls, the player to move is Red exactly when
the history length is even (Yellow when odd), unconditionally — the turn flips
even on the move that concludes the game; and after N successful applies of
legal moves from a fresh game the history holds exactly N moves. -/
theorem c2_alternation_and_history_length :
    (∀ g : Game, Reachable g →
      g.current_player = (if g.move_history.length % 2 = 0 then Player.Red else Player.Yellow))
    ∧ (∀ (w h : Nat) (ms : List Move) (g : Game),
        (Game.new w h).playMoves ms = some g → g.move_history.length = ms.length) := by
  constructor
  · intro g hr
    induction hr with
    | fresh w h => simp [Game.new]
    | @step gpre gpost m hr hmk ih =>
      obtain ⟨-, -, hhist, hpl, -⟩ := makeMove_true_spec hmk
      rw [hpl, hhist, ih]
      simp only [List.length_append, List.length_singleton]
      by_cases hp : gpre.move_history.length % 2 = 0
      · rw [if_pos hp, if_neg (by omega)]
        rfl
      · rw [if_neg hp, if_pos (by omega)]
        rfl
    | @back gpre gpost hr hun ih =>
      obtain ⟨hne, hhist, hpl⟩ := unmakeMove_true_spec hun
      rw [hpl, hhist, ih]
      simp only [List.length_dropLast]
      have hpos : 0 < gpre.move_history.length := List.length_pos.mpr hne
      by_cases hp : gpre.move_history.length % 2 = 0
      · rw [if_pos hp, if_neg (by omega)]
        rfl
      · rw [if_neg hp, if_pos (by omega)]
        rfl
  · intro w h ms g hpm
    have := playMoves_length ms (Game.new w h) g hpm
    simpa [Game.new] using this

/-! ## C7/C8: the compact move-log serialization -/

theorem joinComma_single (p : List Char) : joinComma [p] = p := rfl

theorem joinComma_cons2 (p q : List Char) (ps : List (List Char)) :
    joinComma (p :: q :: ps) = p ++ ',' :: joinComma (q :: ps) := rfl

theorem joinComma_ne_nil (p : List Char) (ps : List (List Char)) (hp : p ≠ []) :
    joinComma (p :: ps) ≠ [] := by
  cases ps with
  | nil => simpa [joinComma_single] using hp
  | cons q rest =>
    rw [joinComma_cons2]
    cases p with
    | nil => exact absurd rfl hp
    | cons c cs => simp

/-- Splitting a comma-free chunk returns just that chunk. -/
theorem splitComma_no_comma (p : List Char) (h : ',' ∉ p) : splitComma p = [p] := by
  induction p with
  | nil => rfl
  | cons c cs ih =>
    rw [List.mem_cons, not_or] at h
    unfold splitComma
    rw [if_neg (fun hc => h.1 hc.symm)]
    rw [ih h.2]

/-- Splitting after a comma-free prefix peels that prefix off. -/
theorem splitComma_append (p t : List Char) (h : ',' ∉ p) :
    splitComma (p ++ ',' :: t) = p :: splitComma t := by
  induction p with
  | nil =>
    show splitComma (',' :: t) = [] :: splitComma t
    conv_lhs => unfold splitComma
    rw [if_pos rfl]
  | cons c cs ih =>
    rw [List.mem_cons, not_or] at h
    show splitComma (c :: (cs ++ ',' :: t)) = (c :: cs) :: splitComma t
    conv_lhs => unfold splitComma
    rw [if_neg (fun hc => h.1 hc.symm)]
    rw [ih h.2]

/-- `split` undoes `join` for a nonempty list of comma-free parts. -/
theorem splitComma_join (parts : List (List Char)) (hne : parts ≠ [])
    (hp : ∀ p ∈ parts, ',' ∉ p) :
    splitComma (joinComma parts) = parts := by
  induction parts with
  | nil => exact absurd rfl hne
  | cons p ps ih =>
    cases ps with
    | nil =>
      rw [joinComma_single]
      exact splitComma_no_comma p (hp p (by simp))
    | cons q rest =>
      rw [joinComma_cons2]
      rw [splitComma_append _ _ (hp p (by simp))]
      rw [ih (by simp) (fun x hx => hp x (List.mem_cons_of_mem p hx))]

/-- Rendering, trimming and parsing a single decimal digit. -/
theorem single_digit_chars (n : Nat) (h : n < 10) :
    natToChars n = [digitChar n]
    ∧ trimChars [digitChar n] = [digitChar n]
    ∧ parseChars [digitChar n] = some n
    ∧ ',' ∉ natToChars n := by
  interval_cases n <;> exact ⟨by decide, by decide, by decide, by decide⟩

/-- `drop_piece` never changes the board dimensions. -/
theorem dropPiece_dims {b : Board} {col : Nat} {p : Player} {r : Nat} {b' : Board}
    (h : b.dropPiece col p = some (r, b')) :
    b'.width = b.width ∧ b'.height = b.height := by
  unfold Board.dropPiece at h
  split_ifs at h
  cases hf : (List.range b.height).find? (fun r => (b.cell col r).isNone) with
  | none => rw [hf] at h; simp at h
  | some r0 =>
    rw [hf] at h
    injection h with h
    injection h with h1 h2
    subst h2
    exact ⟨rfl, rfl⟩

/-- A successful `make_move` never changes the board dimensions. -/
theorem makeMove_dims {g g' : Game} {m : Move} (h : g.makeMove m = (true, g')) :
    g'.board.width = g.board.width ∧ g'.board.height = g.board.height := by
  obtain ⟨-, ⟨row, b, hdp, hb⟩, -, -, -⟩ := makeMove_true_spec h
  rw [hb]
  exact dropPiece_dims hdp

/-- Successful play appends exactly the played moves to the history. -/
theorem playMoves_history : ∀ (ms : List Move) (g g' : Game),
    g.playMoves ms = some g' → g'.move_history = g.move_history ++ ms := by
  intro ms
  induction ms with
  | nil =>
    intro g g' h
    simp only [Game.playMoves] at h
    injection h with h
    subst h
    simp
  | cons m rest ih =>
    intro g g' h
    unfold Game.playMoves at h
    cases hmk : g.makeMove m with
    | mk ok g1 =>
      rw [hmk] at h
      cases ok
      · simp at h
      · obtain ⟨-, -, hhist, -, -⟩ := makeMove_true_spec hmk
        rw [ih g1 g' h, hhist]
        simp

/-- Every move a successful play applies targets an in-range column. -/
theorem playMoves_cols : ∀ (ms : List Move) (g g' : Game),
    g.playMoves ms = some g' → ∀ m ∈ ms, m.col < g.board.width := by
  intro ms
  induction ms with
  | nil => intro g g' h m hm; simp at hm
  | cons m0 rest ih =>
    intro g g' h m hm
    unfold Game.playMoves at h
    cases hmk : g.makeMove m0 with
    | mk ok g1 =>
      rw [hmk] at h
      cases ok
      · simp at h
      · rcases List.mem_cons.mp hm with rfl | hmem
        · exact ((isLegalMove_iff g m).mp (makeMove_true_spec hmk).1).2.1
        · have := ih g1 g' h m hmem
          rwa [(makeMove_dims hmk).1] at this

/-- Replaying the rendered columns of a successfully played move list through
the deserializer's loop reproduces exactly the final game. -/
theorem replayParts_of_play : ∀ (ms : List Move) (g g' : Game),
    g.playMoves ms = some g' → (∀ m ∈ ms, m.col < 10) →
    replayParts g (ms.map fun m => natToChars m.col) = .ok g' := by
  intro ms
  induction ms with
  | nil =>
    intro g g' h _
    simp only [Game.playMoves] at h
    injection h with h
    subst h
    rfl
  | cons m rest ih =>
    intro g g' h hcols
    unfold Game.playMoves at h
    cases hmk : g.makeMove m with
    | mk ok g1 =>
      rw [hmk] at h
      cases ok
      · simp at h
      · have hm10 : m.col < 10 := hcols m (by simp)
        obtain ⟨hnc, htrim, hparse, -⟩ := single_digit_chars m.col hm10
        show replayParts g (natToChars m.col :: rest.map _) = .ok g'
        unfold replayParts
        rw [hnc, htrim, hparse]
        dsimp only
        have hrow := ((isLegalMove_iff g m).mp (makeMove_true_spec hmk).1).2.2.2
        have hmv : (⟨m.col, g.board.columnHeight m.col⟩ : Move) = m := by
          cases m
          simp_all
        rw [hmv, hmk]
        exact ih g1 g' h (fun x hx => hcols x (List.mem_cons_of_mem m hx))

/-- A replay that ends in `Ok` applied one move per part, skipping none. -/
theorem replayParts_length : ∀ (parts : List (List Char)) (g g' : Game),
    replayParts g parts = .ok g' →
    g'.move_history.length = g.move_history.length + parts.length := by
  intro parts
  induction parts with
  | nil =>
    intro g g' h
    simp only [replayParts] at h
    injection h with h
    subst h
    simp
  | cons part rest ih =>
    intro g g' h
    unfold replayParts at h
    cases hp : parseChars (trimChars part) with
    | none => rw [hp] at h; simp at h
    | some col =>
      rw [hp] at h
      dsimp only at h
      cases hmk : g.makeMove ⟨col, g.board.columnHeight col⟩ with
      | mk ok g1 =>
        rw [hmk] at h
        cases ok
        · simp at h
        · obtain ⟨-, -, hhist, -, -⟩ := makeMove_true_spec hmk
          have := ih g1 g' h
          rw [this, hhist]
          simp
          omega

/-- C7: a fresh standard game serializes to the empty string; after the moves
at columns 3, 3, 4, 4 it serializes to "3,3,4,4"; deserializing "3,3,4,4"
reproduces that very game (hence the same history length and outcome); and in
general deserialization inverts serialization on every standard game built
from successfully applied moves. -/
theorem c7_serde_roundtrip :
    serializeGame Game.standard = ""
    ∧ (Game.standard.playMoves demoMoves).map serializeGame = some "3,3,4,4"
    ∧ (deserializeGame "3,3,4,4").toOption.map (fun g => (g.move_history.length, g.outcome))
        = some (4, none)
    ∧ (deserializeGame "3,3,4,4").toOption = Game.standard.playMoves demoMoves
    ∧ (∀ (ms : List Move) (g : Game), Game.standard.playMoves ms = some g →
        deserializeGame (serializeGame g) = .ok g) := by
  refine ⟨by decide, by decide, by decide, by decide, fun ms g hpm => ?_⟩
  have hhist : g.move_history = ms := by
    have := playMoves_history ms Game.standard g hpm
    simpa [Game.standard, Game.new] using this
  have hcols : ∀ m ∈ ms, m.col < 10 := fun m hm =>
    lt_trans (playMoves_cols ms Game.standard g hpm m hm) (by decide)
  cases ms with
  | nil =>
    have hg : g = Game.standard := by
      rw [show Game.playMoves Game.standard [] = some Game.standard from rfl] at hpm
      injection hpm with hpm
      exact hpm.symm
    subst hg
    rfl
  | cons m rest =>
    have hheadne : natToChars m.col ≠ [] := by
      rw [(single_digit_chars m.col (hcols m (by simp))).1]
      simp
    have hnocomma : ∀ p ∈ (m :: rest).map (fun x => natToChars x.col), ',' ∉ p := by
      intro p hp
      obtain ⟨x, hx, rfl⟩ := List.mem_map.mp hp
      exact (single_digit_chars x.col (hcols x hx)).2.2.2
    have hjne : joinComma ((m :: rest).map fun x => natToChars x.col) ≠ [] := by
      rw [show (m :: rest).map (fun x => natToChars x.col)
          = natToChars m.col :: rest.map (fun x => natToChars x.col) from rfl]
      exact joinComma_ne_nil _ _ hheadne
    unfold serializeGame deserializeGame
    rw [hhist]
    rw [if_neg hjne]
    rw [splitComma_join _ (by simp) hnocomma]
    exact replayParts_of_play (m :: rest) Game.standard g hpm hcols

/-- C8: deserialization that succeeds has applied exactly one move per logged
entry (nothing is ever silently skipped), and — the replay being a fold in the
`Except` monad — any unparsable entry, out-of-range column, full column, or
move into an already-concluded game aborts with an error carrying no game
state (instances: a non-numeric entry, a non-numeric later entry, column 9 on
the 7-wide standard board, an eighth drop into column 0, and a move after a
replayed win has concluded the game). -/
theorem c8_deserialize_error_on_bad_entry :
    (∀ (s : String) (g : Game), s ≠ "" → deserializeGame s = .ok g →
      g.move_history.length = (splitComma s.data).length)
    ∧ (deserializeGame "x").toOption = none
    ∧ (deserializeGame "3,x").toOption = none
    ∧ (deserializeGame "9").toOption = none
    ∧ (deserializeGame "0,0,0,0,0,0,0").toOption = none
    ∧ (deserializeGame "0,1,0,1,0,1,0,4").toOption = none := by
  refine ⟨fun s g hne h => ?_, by decide, by decide, by decide, by decide, by decide⟩
  unfold deserializeGame at h
  have hdne : ¬(s.data = []) := by
    intro hd
    apply hne
    cases s with
    | mk data =>
      cases hd
      decide
  rw [if_neg hdne] at h
  have := replayParts_length (splitComma s.data) Game.standard g h
  simpa [Game.standard, Game.new] using this

end Connect4
